import Mathlib

/-!
Shallow embedding of the linkedin-lead-pipeline repository.

Sources embedded:
* `src/services/apify.js`   — URL normalizer and engager extractor
  (`normalizeLinkedInUrl`, `extractProfileUrls`, `extractUrlFromItem`);
* `src/services/apollo.js`  — enrichment (`enrichProfile`, `enrichProfiles`,
  `chunkArray`);
* `src/services/smartlead.js` — delivery (`formatLead`, `addLeads`,
  `addLeadsIndividually`);
* the orchestrator (`runPipeline`).

Strings are modelled by `String` / `List Char`; JS `null`/`undefined`
inputs by `Option`; JS exceptions by `Except`.  External collaborators
(HTTP backends) are passed in as explicit oracles.  Timing side effects
(`sleep`) are recorded as instrumentation (counts / duration lists), not
performed.
-/

namespace Pipeline

/-! ### URL normalizer — apify.js `normalizeLinkedInUrl` -/

/-- JS `url.split('?')[0]`: everything before the first `'?'`
(the whole string when there is no `'?'`). -/
def stripQuery (s : List Char) : List Char := s.takeWhile (fun c => c ≠ '?')

/-- JS `.replace(/\/+$/, '')`: remove every trailing `'/'`. -/
def stripSlashes (s : List Char) : List Char :=
  (s.reverse.dropWhile (fun c => c = '/')).reverse

/-- JS `normalized.replace('http://', 'https://')` guarded by
`normalized.startsWith('http://')`: `String.replace` with a plain-string
pattern replaces the first occurrence, and under the guard the first
occurrence is the 7-character prefix itself. -/
def upgradeScheme (s : List Char) : List Char :=
  if "http://".data <+: s then "https://".data ++ s.drop 7 else s

/-- Core of apify.js `normalizeLinkedInUrl` on the character list of the
input string.  The empty string is rejected by the JS truthiness test
`!url`; a string without the substring `linkedin.com` is rejected by
`!url.includes('linkedin.com')` (checked on the raw input, before any
stripping). -/
def normalizeChars (s : List Char) : Option (List Char) :=
  if s = [] then none
  else if "linkedin.com".data <:+: s then
    some (upgradeScheme (stripSlashes (stripQuery s)))
  else none

/-- apify.js `normalizeLinkedInUrl`.  `none` models a JS `null`,
`undefined` or non-string argument (rejected by
`!url || typeof url !== 'string'`). -/
def normalizeLinkedInUrl : Option String → Option String
  | none => none
  | some u => (normalizeChars u.data).map String.mk

/-! ### Engager extractor — apify.js `extractProfileUrls` / `extractUrlFromItem`

A scrape item is an arbitrarily shaped JS object.  We model exactly the
parts the extractor probes: string-valued fields, object-valued fields
(themselves items), and the three identifier fields.  A JS field holds a
single value, so string- and object-valued fields are kept in separate
association lists assumed to use distinct names; fields of any other
runtime type would fail the extractor's `typeof` checks and behave like
absent fields, so they are not modelled. -/

inductive Item where
  | mk (strFields : List (String × String)) (objFields : List (String × Item))
       (publicId publicIdentifier vanityName : Option String)

def Item.strFields : Item → List (String × String)
  | .mk s _ _ _ _ => s

def Item.objFields : Item → List (String × Item)
  | .mk _ o _ _ _ => o

def Item.publicId : Item → Option String
  | .mk _ _ p _ _ => p

def Item.publicIdentifier : Item → Option String
  | .mk _ _ _ p _ => p

def Item.vanityName : Item → Option String
  | .mk _ _ _ _ v => v

/-- Property read `item[f]` for a string-valued field. -/
def lookupStr (it : Item) (f : String) : Option String := it.strFields.lookup f

/-- Property read `item[f]` for an object-valued field
(the JS code additionally checks `typeof item[f] === 'object'`). -/
def lookupObj (it : Item) (f : String) : Option Item := it.objFields.lookup f

/-- JS truthiness for an optional string: the empty string is falsy. -/
def truthyStr : Option String → Option String
  | some s => if s = "" then none else some s
  | none => none

/-- apify.js: the ordered list of recognized flat URL field names. -/
def urlFields : List String :=
  ["profileUrl", "profile_url", "linkedinUrl", "linkedin_url",
   "url", "link", "actorUrl", "authorUrl", "memberUrl"]

/-- apify.js: the ordered list of recognized nested object names. -/
def nestedObjects : List String :=
  ["actor", "user", "profile", "reactor", "author", "member", "commenter"]

/-- Insertion into the JS `Set` (insertion order preserved, duplicates
collapse). -/
def insertUrl (acc : List String) (u : String) : List String :=
  if u ∈ acc then acc else acc ++ [u]

/-- One flat-field probe:
`if (item[f] && typeof item[f] === 'string' && item[f].includes('linkedin.com/in/'))`
followed by `normalizeLinkedInUrl` and insertion when normalization
succeeds. -/
def tryUrlField (acc : List String) (v : Option String) : List String :=
  match truthyStr v with
  | some s =>
    if "linkedin.com/in/".data <:+: s.data then
      match normalizeLinkedInUrl (some s) with
      | some n => insertUrl acc n
      | none => acc
    else acc
  | none => acc

/-- Synthesis from an identifier field: `if (o.publicId)` then insert the
template `https://www.linkedin.com/in/<value>` directly, with no
normalization. -/
def addIdUrl (acc : List String) (v : Option String) : List String :=
  match truthyStr v with
  | some p => insertUrl acc ("https://www.linkedin.com/in/" ++ p)
  | none => acc

/-- The body executed for a nested object inside `extractUrlFromItem`:
the flat URL fields, then `publicId`, `publicIdentifier`, `vanityName`. -/
def extractFromObj (acc : List String) (o : Item) : List String :=
  let a1 := urlFields.foldl (fun a f => tryUrlField a (lookupStr o f)) acc
  let a2 := addIdUrl a1 o.publicId
  let a3 := addIdUrl a2 o.publicIdentifier
  addIdUrl a3 o.vanityName

/-- apify.js `extractUrlFromItem` (state-passing on the URL set):
flat fields, then the seven nested object names, then the two top-level
identifier fields (`vanityName` is not probed at top level). -/
def extractUrlFromItem (acc : List String) (item : Item) : List String :=
  let a1 := urlFields.foldl (fun a f => tryUrlField a (lookupStr item f)) acc
  let a2 := nestedObjects.foldl
    (fun a n =>
      match lookupObj item n with
      | some o => extractFromObj a o
      | none => a) a1
  let a3 := addIdUrl a2 item.publicId
  addIdUrl a3 item.publicIdentifier

/-- One post record from the scraper.  Each collection field is an array
or absent; JS `post.reactions || post.likers || post.likes || []` picks
the first field that is present (an empty array is truthy). -/
structure Post where
  authorProfileUrl : Option String
  reactions : Option (List Item)
  likers : Option (List Item)
  likes : Option (List Item)
  comments : Option (List Item)
  commenters : Option (List Item)
  engagements : Option (List Item)
  engagement : Option (List Item)

/-- JS `a || b` on optional arrays (an array, even empty, is truthy). -/
def firstArr (a b : Option (List Item)) : Option (List Item) :=
  match a with
  | some x => some x
  | none => b

/-- The body of `extractProfileUrls`' loop over one post. -/
def extractStep (acc : List String) (post : Post) : List String :=
  let a1 :=
    match truthyStr post.authorProfileUrl with
    | some s =>
      match normalizeLinkedInUrl (some s) with
      | some n => insertUrl acc n
      | none => acc
    | none => acc
  let reactions := (firstArr post.reactions (firstArr post.likers post.likes)).getD []
  let a2 := reactions.foldl extractUrlFromItem a1
  let comments := (firstArr post.comments post.commenters).getD []
  let a3 := comments.foldl
    (fun a c =>
      let a' := extractUrlFromItem a c
      match lookupObj c "author" with
      | some au => extractUrlFromItem a' au
      | none => a') a2
  let engagements := (firstArr post.engagements post.engagement).getD []
  engagements.foldl extractUrlFromItem a3

/-- apify.js `extractProfileUrls`: fold over the posts, starting from the
empty `Set`, returning `Array.from(profileUrls)` (insertion order). -/
def extractProfileUrls (postData : List Post) : List String :=
  postData.foldl extractStep []

/-! ### Enrichment — apollo.js -/

/-- The fields of `response.data.person` the code reads.  A JS
`undefined` string field is modelled by `""` (both are falsy, and the
code only uses these fields through truthiness tests or `|| ''`
defaults).  `orgName` stands for `person.organization?.name`. -/
structure Person where
  email : String
  email_status : String
  first_name : String
  last_name : String
  title : String
  orgName : String
  company : String
  deriving DecidableEq

structure EnrichedContact where
  email : String
  firstName : String
  lastName : String
  title : String
  companyName : String
  linkedinUrl : String
  emailStatus : String
  deriving DecidableEq

/-- JS `a || b` for strings (empty string is falsy). -/
def jsOrStr (a b : String) : String := if a = "" then b else a

/-- The success branch of apollo.js `enrichProfile`: given
`response.data.person` (possibly absent), apply the email filter
`if (!email || emailStatus === 'guessed' || emailStatus === 'unavailable') return null`
and build the contact. -/
def enrichOnce (linkedinUrl : String) (po : Option Person) : Option EnrichedContact :=
  match po with
  | none => none
  | some p =>
    if p.email = "" ∨ p.email_status = "guessed" ∨ p.email_status = "unavailable" then none
    else some
      { email := p.email
        firstName := p.first_name
        lastName := p.last_name
        title := p.title
        companyName := jsOrStr p.orgName p.company
        linkedinUrl := linkedinUrl
        emailStatus := p.email_status }

/-- Outcome of one HTTP call to the enrichment backend. -/
inductive ApolloResp where
  | success (po : Option Person)
  | rateLimited
  | failure
  deriving DecidableEq

/-- Instrumented run of apollo.js `enrichProfile`: the final value
(`result = some r` — the JS function returned `r`; `result = none` —
the fuel ran out while the backend kept rate-limiting, mirroring the
unbounded recursion), the URLs sent to the backend in order, and the
`sleep` durations awaited. -/
structure EnrichCallRun where
  result : Option (Option EnrichedContact)
  calls : List String
  sleeps : List Nat
  deriving DecidableEq

/-- apollo.js `enrichProfile`, fuelled.  `oracle n` is the backend's
response to the `n`-th attempt.  On HTTP 429 the code sleeps 5000 ms and
recurses on the same URL; on any other error it returns `null`
(`.failure` branch); on success it applies the email filter. -/
def enrichProfileFuel (oracle : Nat → ApolloResp) (linkedinUrl : String) :
    Nat → Nat → EnrichCallRun
  | _, 0 => ⟨none, [], []⟩
  | attempt, fuel + 1 =>
    match oracle attempt with
    | .success po => ⟨some (enrichOnce linkedinUrl po), [linkedinUrl], []⟩
    | .rateLimited =>
      let r := enrichProfileFuel oracle linkedinUrl (attempt + 1) fuel
      ⟨r.result, linkedinUrl :: r.calls, 5000 :: r.sleeps⟩
    | .failure => ⟨some none, [linkedinUrl], []⟩

/-- Structural worker for `chunkArray`: the fuel starts at the list's
length, which bounds the number of loop iterations because each step
removes at least one element (`0 < sz`); the `fuel = 0` branch is
unreachable under that invariant. -/
def chunkGo {α : Type} (sz : Nat) : Nat → List α → List (List α)
  | _, [] => []
  | 0, _ :: _ => []
  | f + 1, a :: t => (a :: t).take sz :: chunkGo sz f ((a :: t).drop sz)

/-- apollo.js `chunkArray`: slices of `size` starting at 0, size, 2*size, …
The `size = 0` case is unreachable in the source (the JS loop would not
terminate); every theorem below assumes `0 < size`. -/
def chunkArray {α : Type} (l : List α) (size : Nat) : List (List α) :=
  match size with
  | 0 => []
  | s + 1 => chunkGo (s + 1) l.length l

/-- Result of apollo.js `enrichProfiles`: the collected contacts and the
number of inter-batch delays (`sleep(delayMs)`) performed. -/
structure EnrichBatchRun where
  contacts : List EnrichedContact
  delays : Nat
  deriving DecidableEq

/-- The batch loop of `enrichProfiles`.  Within a batch, one call per URL
(`Promise.all` keeps batch order) and non-null results are appended.
JS `batches.indexOf(batch)` compares by object reference, and the chunks
are distinct array objects, so the test `indexOf(batch) < batches.length - 1`
is exactly "this is not the last batch". -/
def runBatches (enrich : String → Option EnrichedContact) :
    List (List String) → EnrichBatchRun
  | [] => ⟨[], 0⟩
  | b :: rest =>
    let contacts := b.filterMap enrich
    let r := runBatches enrich rest
    ⟨contacts ++ r.contacts, r.delays + (if rest.isEmpty then 0 else 1)⟩

/-- apollo.js `enrichProfiles` (per-URL behaviour abstracted into the
`enrich` oracle; the default concurrency is 5). -/
def enrichProfiles (enrich : String → Option EnrichedContact)
    (linkedinUrls : List String) (concurrency : Nat) : EnrichBatchRun :=
  runBatches enrich (chunkArray linkedinUrls concurrency)

/-! ### Delivery — smartlead.js -/

/-- The Smartlead lead shape produced by `formatLead`: top-level email and
names, everything else under `custom_fields` (flattened here). -/
structure Lead where
  email : String
  first_name : String
  last_name : String
  company : String
  title : String
  linkedin_url : String
  deriving DecidableEq

/-- smartlead.js `formatLead` (the `|| ''` defaults are identities here
because contact fields are total strings). -/
def formatLead (c : EnrichedContact) : Lead :=
  { email := c.email
    first_name := c.firstName
    last_name := c.lastName
    company := c.companyName
    title := c.title
    linkedin_url := c.linkedinUrl }

/-- The fields of a bulk-upload response the code reads; `none` models an
absent field. -/
structure BulkResp where
  upload_count : Option Nat
  total_leads : Option Nat
  failed_count : Option Nat
  deriving DecidableEq

/-- JS `a || b` on an optional number: `undefined` and `0` are both
falsy and fall through to `b`. -/
def jsOrNat (a : Option Nat) (b : Nat) : Nat :=
  match a with
  | some k => if k = 0 then b else k
  | none => b

/-- One element of the fallback path's `results` array:
`{ success, email, error? }`. -/
structure LeadOutcome where
  success : Bool
  email : String
  error : Option String
  deriving DecidableEq

/-- Return value of `addLeads` / `addLeadsIndividually`.  `leads` is the
per-contact outcome list of the fallback path (empty on the bulk path);
`calls` is instrumentation recording the individual submissions issued. -/
structure AddLeadsResult where
  added : Nat
  failed : Nat
  leads : List LeadOutcome
  calls : List Lead
  deriving DecidableEq

/-- smartlead.js `addLeadsIndividually`: one `POST` per lead
(`submitOne`), `try`/`catch` per lead, counting successes and failures
and accumulating per-lead outcomes; it continues past failures and never
throws. -/
def addLeadsIndividually (submitOne : Lead → Except String String) :
    List Lead → AddLeadsResult
  | [] => ⟨0, 0, [], []⟩
  | lead :: rest =>
    let r := addLeadsIndividually submitOne rest
    match submitOne lead with
    | .ok _ => ⟨r.added + 1, r.failed, ⟨true, lead.email, none⟩ :: r.leads, lead :: r.calls⟩
    | .error e => ⟨r.added, r.failed + 1, ⟨false, lead.email, some e⟩ :: r.leads, lead :: r.calls⟩

/-- smartlead.js `addLeads`: empty input short-circuits; otherwise format
all leads, attempt the bulk upload, and on success compute
`added = result.upload_count || result.total_leads || formattedLeads.length`
and `failed = result.failed_count || 0`; on any bulk error fall back to
`addLeadsIndividually`. -/
def addLeads (bulk : List Lead → Except String BulkResp)
    (submitOne : Lead → Except String String)
    (contacts : List EnrichedContact) : AddLeadsResult :=
  if contacts.isEmpty then ⟨0, 0, [], []⟩
  else
    let formattedLeads := contacts.map formatLead
    match bulk formattedLeads with
    | .ok result =>
      ⟨jsOrNat result.upload_count (jsOrNat result.total_leads formattedLeads.length),
       jsOrNat result.failed_count 0, [], []⟩
    | .error _ => addLeadsIndividually submitOne formattedLeads

/-! ### Pipeline controller — the orchestrator's `runPipeline` -/

structure Stats where
  engagers : Nat
  enriched : Nat
  pushed : Nat
  failed : Nat
  deriving DecidableEq

/-- A message posted back to the chat thread. -/
inductive Notification where
  | status (text : String)
  | message (text : String)
  | summary (stats : Stats)
  | error (text : String)
  deriving DecidableEq

/-- Observable outcome of one `runPipeline` invocation: the ordered chat
notifications, the returned value (`Except.error`: the exception
re-thrown after `sendError`), and whether the Enricher / Delivery
collaborators were invoked at all. -/
structure PipelineRun where
  notifications : List Notification
  outcome : Except String Stats
  enricherInvoked : Bool
  deliveryInvoked : Bool

/-- The orchestrator's `runPipeline`.  The Scraper's outcome is passed in
as `scrape`; `enrich` abstracts `apollo.enrichProfiles` (which swallows
all per-URL errors, hence is total); `deliver` abstracts
`smartlead.addLeads` (which never throws).  Chat sends are modelled as
always succeeding. -/
def runPipeline (scrape : Except String (List String))
    (enrich : List String → List EnrichedContact)
    (deliver : List EnrichedContact → AddLeadsResult) : PipelineRun :=
  match scrape with
  | .error e =>
    { notifications := [.status "Scraping LinkedIn post engagers...",
                        .error ("Pipeline failed: " ++ e)]
      outcome := .error e
      enricherInvoked := false
      deliveryInvoked := false }
  | .ok profileUrls =>
    let engagers := profileUrls.length
    if engagers = 0 then
      { notifications := [.status "Scraping LinkedIn post engagers...",
                          .message "No engagers found for this post."]
        outcome := .ok ⟨0, 0, 0, 0⟩
        enricherInvoked := false
        deliveryInvoked := false }
    else
      let enrichedContacts := enrich profileUrls
      let enriched := enrichedContacts.length
      if enriched = 0 then
        { notifications := [.status "Scraping LinkedIn post engagers...",
                            .status ("Enriching " ++ toString engagers ++ " profiles with Apollo..."),
                            .message "No verified emails found from Apollo enrichment.",
                            .summary ⟨engagers, 0, 0, 0⟩]
          outcome := .ok ⟨engagers, 0, 0, 0⟩
          enricherInvoked := true
          deliveryInvoked := false }
      else
        let r := deliver enrichedContacts
        { notifications := [.status "Scraping LinkedIn post engagers...",
                            .status ("Enriching " ++ toString engagers ++ " profiles with Apollo..."),
                            .status ("Pushing " ++ toString enriched ++ " leads to Smartlead..."),
                            .summary ⟨engagers, enriched, r.added, r.failed⟩]
          outcome := .ok ⟨engagers, enriched, r.added, r.failed⟩
          enricherInvoked := true
          deliveryInvoked := true }

/-! ### Spec-side definitions used to state the claims -/

/-- Two raw strings that differ only by scheme (`http` vs `https`). -/
def schemeVariant (u1 u2 : String) : Prop :=
  ∃ r : String,
    (u1 = "http://" ++ r ∧ u2 = "https://" ++ r) ∨
    (u1 = "https://" ++ r ∧ u2 = "http://" ++ r)

/-- Two raw strings that differ only by trailing `'/'` characters. -/
def slashVariant (u1 u2 : String) : Prop :=
  ∃ (b : List Char) (j k : Nat),
    u1.data = b ++ List.replicate j '/' ∧ u2.data = b ++ List.replicate k '/'

/-- Two raw strings that differ only by their query string. -/
def queryVariant (u1 u2 : String) : Prop :=
  ∃ b q1 q2 : List Char,
    '?' ∉ b ∧ (q1 = [] ∨ q1.head? = some '?') ∧ (q2 = [] ∨ q2.head? = some '?') ∧
    u1.data = b ++ q1 ∧ u2.data = b ++ q2

/-- Sample contact used in concrete instantiations. -/
def contactA : EnrichedContact :=
  { email := "a@example.com"
    firstName := "Ada"
    lastName := "Lovelace"
    title := "Engineer"
    companyName := "Acme"
    linkedinUrl := "https://linkedin.com/in/ada"
    emailStatus := "verified" }

/-- Twelve distinct URLs used in the concrete batching instantiation. -/
def urls12 : List String :=
  ["u01", "u02", "u03", "u04", "u05", "u06", "u07", "u08", "u09", "u10", "u11", "u12"]

/-- The shape invariant that actually holds of every extracted
ProfileURL: it is either the normalizer's output for some raw string, or
a string synthesized from an identifier by the fixed template (with no
normalization applied to it). -/
def ProfileOk (u : String) : Prop :=
  (∃ raw, normalizeLinkedInUrl (some raw) = some u) ∨
  (∃ id, u = "https://www.linkedin.com/in/" ++ id)

/-!
## Theorems

Generic list lemmas, then characterization lemmas for the normalizer,
extractor, batcher, delivery and controller, then one named theorem per
claim (with its witness or counterexample).
-/

theorem takeWhile_append_of_all {α : Type} {p : α → Bool} {l1 l2 : List α}
    (h : ∀ a ∈ l1, p a) : (l1 ++ l2).takeWhile p = l1 ++ l2.takeWhile p := by
  induction l1 with
  | nil => simp
  | cons a t ih =>
    simp only [List.cons_append, List.takeWhile_cons, h a (List.mem_cons_self a t)]
    simp [ih fun x hx => h x (List.mem_cons_of_mem _ hx)]

theorem takeWhile_append_of_bad {α : Type} {p : α → Bool} {l1 l2 : List α}
    (h : ∃ a ∈ l1, ¬ p a) : (l1 ++ l2).takeWhile p = l1.takeWhile p := by
  induction l1 with
  | nil => obtain ⟨a, ha, -⟩ := h; simp at ha
  | cons a t ih =>
    by_cases hpa : p a
    · obtain ⟨x, hx, hpx⟩ := h
      rcases List.mem_cons.mp hx with rfl | hxt
      · exact absurd hpa hpx
      · simp only [List.cons_append, List.takeWhile_cons, hpa]
        simp [ih ⟨x, hxt, hpx⟩]
    · simp [List.takeWhile_cons, hpa]

theorem dropWhile_append_of_all {α : Type} {p : α → Bool} {l1 l2 : List α}
    (h : ∀ a ∈ l1, p a) : (l1 ++ l2).dropWhile p = l2.dropWhile p := by
  induction l1 with
  | nil => simp
  | cons a t ih =>
    simp only [List.cons_append, List.dropWhile_cons, h a (List.mem_cons_self a t)]
    simp [ih fun x hx => h x (List.mem_cons_of_mem _ hx)]

theorem dropWhile_append_of_stuck {α : Type} {p : α → Bool} {l1 l2 : List α}
    (h : l1.dropWhile p ≠ []) : (l1 ++ l2).dropWhile p = l1.dropWhile p ++ l2 := by
  induction l1 with
  | nil => simp at h
  | cons a t ih =>
    by_cases hpa : p a
    · rw [List.dropWhile_cons, if_pos hpa] at h
      simp only [List.cons_append, List.dropWhile_cons, hpa, if_true]
      exact ih h
    · simp [List.dropWhile_cons, hpa]

theorem head?_dropWhile {α : Type} {p : α → Bool} :
    ∀ {l : List α} {a : α}, (l.dropWhile p).head? = some a → p a = false := by
  intro l
  induction l with
  | nil => intro a h; simp at h
  | cons x t ih =>
    intro a h
    rw [List.dropWhile_cons] at h
    by_cases hpx : p x
    · rw [if_pos hpx] at h; exact ih h
    · rw [if_neg hpx] at h
      simp only [List.head?_cons, Option.some.injEq] at h
      subst h
      exact Bool.eq_false_iff.mpr hpx

/-! ### Normalizer lemmas -/

theorem stripQuery_no_mark (s : List Char) : '?' ∉ stripQuery s := by
  intro h
  have := List.mem_takeWhile_imp h
  simp at this

theorem stripQuery_mem {s : List Char} {a : Char} (h : a ∈ stripQuery s) :
    a ∈ s ∧ a ≠ '?' := by
  refine ⟨(List.takeWhile_prefix _).sublist.mem h, ?_⟩
  have := List.mem_takeWhile_imp h
  simpa using this

theorem stripQuery_decomp (s : List Char) :
    s = stripQuery s ++ s.dropWhile (fun c => c ≠ '?') :=
  (List.takeWhile_append_dropWhile _ _).symm

theorem dropWhile_mark_head (s : List Char) :
    s.dropWhile (fun c => c ≠ '?') = [] ∨
      (s.dropWhile (fun c => c ≠ '?')).head? = some '?' := by
  cases h : s.dropWhile (fun c => c ≠ '?') with
  | nil => exact Or.inl rfl
  | cons a t =>
    right
    have ha := @head?_dropWhile Char (fun c => decide (c ≠ '?')) s a
      (by rw [h]; rfl)
    simp only [decide_eq_false_iff_not, not_not] at ha
    rw [List.head?_cons, ha]

theorem stripQuery_eq_self {s : List Char} (h : '?' ∉ s) : stripQuery s = s :=
  List.takeWhile_eq_self_iff.mpr fun x hx => by
    simp only [decide_eq_true_eq]
    rintro rfl
    exact h hx

theorem stripSlashes_decomp (s : List Char) :
    ∃ t, s = stripSlashes s ++ t ∧ ∀ c ∈ t, c = '/' := by
  refine ⟨(s.reverse.takeWhile (fun c => c = '/')).reverse, ?_, ?_⟩
  · conv_lhs => rw [← List.reverse_reverse s,
      ← List.takeWhile_append_dropWhile (fun c => c = '/') s.reverse]
    rw [List.reverse_append]
    rfl
  · intro c hc
    rw [List.mem_reverse] at hc
    have := List.mem_takeWhile_imp hc
    simpa using this

theorem stripSlashes_getLast (s : List Char) :
    (stripSlashes s).getLast? ≠ some '/' := by
  intro h
  unfold stripSlashes at h
  rw [List.getLast?_reverse] at h
  have := head?_dropWhile h
  simp at this

theorem stripSlashes_mem {s : List Char} {a : Char} (h : a ∈ stripSlashes s) : a ∈ s := by
  unfold stripSlashes at h
  rw [List.mem_reverse] at h
  exact List.mem_reverse.mp ((List.dropWhile_sublist _).mem h)

theorem stripSlashes_append_slashes {s t : List Char} (ht : ∀ c ∈ t, c = '/') :
    stripSlashes (s ++ t) = stripSlashes s := by
  unfold stripSlashes
  rw [List.reverse_append, dropWhile_append_of_all]
  intro a ha
  rw [List.mem_reverse] at ha
  simp [ht a ha]

theorem stripSlashes_append_keep {s t : List Char} (ht : stripSlashes t ≠ []) :
    stripSlashes (s ++ t) = s ++ stripSlashes t := by
  have ht' : t.reverse.dropWhile (fun c => c = '/') ≠ [] := by
    intro h0
    apply ht
    unfold stripSlashes
    rw [h0]
    rfl
  unfold stripSlashes
  rw [List.reverse_append, dropWhile_append_of_stuck ht', List.reverse_append,
    List.reverse_reverse]

theorem stripSlashes_eq_self {s : List Char} (h : s.getLast? ≠ some '/') :
    stripSlashes s = s := by
  unfold stripSlashes
  cases hrev : s.reverse with
  | nil =>
    have : s = [] := List.reverse_eq_nil_iff.mp hrev
    simp [this]
  | cons a t =>
    have ha : a ≠ '/' := by
      intro rfla
      apply h
      rw [List.getLast?_eq_head?_reverse, hrev, List.head?_cons, rfla]
    rw [List.dropWhile_cons, if_neg (by simp [ha]), ← hrev, List.reverse_reverse]

theorem linkedin_infix_ne_nil {s : List Char} (h : "linkedin.com".data <:+: s) :
    s ≠ [] := by
  intro rfl0
  subst rfl0
  have := h.length_le
  simp at this

theorem linkedin_mem_of_infix {s : List Char} (h : "linkedin.com".data <:+: s) :
    'l' ∈ s := by
  obtain ⟨x, y, hxy⟩ := h
  rw [← hxy]
  have : 'l' ∈ "linkedin.com".data := by decide
  simp [List.mem_append, this]

theorem not_infix_all_slash {s : List Char} (h : ∀ c ∈ s, c = '/') :
    ¬ ("linkedin.com".data <:+: s) := by
  intro hin
  have hl := linkedin_mem_of_infix hin
  have := h _ hl
  exact absurd this (by decide)

theorem normalize_of_accept {u : String} (h1 : u.data ≠ [])
    (h2 : "linkedin.com".data <:+: u.data) :
    normalizeLinkedInUrl (some u) =
      some (String.mk (upgradeScheme (stripSlashes (stripQuery u.data)))) := by
  have base : normalizeLinkedInUrl (some u) = (normalizeChars u.data).map String.mk := rfl
  rw [base]
  unfold normalizeChars
  rw [if_neg h1, if_pos h2]
  rfl

theorem normalize_of_reject {u : String} (h2 : ¬ "linkedin.com".data <:+: u.data) :
    normalizeLinkedInUrl (some u) = none := by
  have base : normalizeLinkedInUrl (some u) = (normalizeChars u.data).map String.mk := rfl
  rw [base]
  unfold normalizeChars
  by_cases h1 : u.data = []
  · rw [if_pos h1]; rfl
  · rw [if_neg h1, if_neg h2]; rfl

theorem normalize_eq_some {u v : String} (h : normalizeLinkedInUrl (some u) = some v) :
    u.data ≠ [] ∧ "linkedin.com".data <:+: u.data ∧
      v.data = upgradeScheme (stripSlashes (stripQuery u.data)) := by
  by_cases h1 : u.data = []
  · have base : normalizeLinkedInUrl (some u) = (normalizeChars u.data).map String.mk := rfl
    rw [base] at h
    unfold normalizeChars at h
    rw [if_pos h1] at h
    simp at h
  · by_cases h2 : "linkedin.com".data <:+: u.data
    · refine ⟨h1, h2, ?_⟩
      rw [normalize_of_accept h1 h2] at h
      have := (Option.some.injEq _ _).mp h
      rw [← this]
    · rw [normalize_of_reject h2] at h
      simp at h

theorem not_http_prefix_of_https {r : List Char} :
    ¬ "http://".data <+: ("https://".data ++ r) := by
  intro hcontra
  obtain ⟨t2, ht2⟩ := hcontra
  have h4 := congrArg (fun l => l[4]?) ht2
  simp only at h4
  rw [List.getElem?_append_left (by decide : (4 : Nat) < "http://".data.length),
    List.getElem?_append_left (by decide : (4 : Nat) < "https://".data.length)] at h4
  have hl : "http://".data[4]? = some ':' := by decide
  have hr : "https://".data[4]? = some 's' := by decide
  rw [hl, hr] at h4
  exact absurd h4 (by decide)

/-- A string already in normal form (contains `linkedin.com`, no `'?'`,
no trailing `'/'`, no `http://` scheme) is a fixpoint of the
normalizer. -/
theorem normalize_fixpoint {v : String} (hkeep : "linkedin.com".data <:+: v.data)
    (hnoq : '?' ∉ v.data) (hlast : v.data.getLast? ≠ some '/')
    (hps : ¬ "http://".data <+: v.data) :
    normalizeLinkedInUrl (some v) = some v := by
  have hup : upgradeScheme v.data = v.data := by
    unfold upgradeScheme
    rw [if_neg hps]
  rw [normalize_of_accept (linkedin_infix_ne_nil hkeep) hkeep,
    stripQuery_eq_self hnoq, stripSlashes_eq_self hlast, hup]

/-- C3: the three canonical examples normalize to
`https://linkedin.com/in/a`; `null`/non-string, empty and
non-`linkedin.com` inputs are rejected; and every accepted input is
decomposed as a `'?'`-free core, a run of trailing slashes and a query
part, the result being the core with an `http://` prefix upgraded to
`https://`. -/
theorem claim_C3 :
    (normalizeLinkedInUrl (some "http://linkedin.com/in/a/") = some "https://linkedin.com/in/a"
      ∧ normalizeLinkedInUrl (some "https://linkedin.com/in/a?trk=x") = some "https://linkedin.com/in/a"
      ∧ normalizeLinkedInUrl (some "https://linkedin.com/in/a") = some "https://linkedin.com/in/a")
    ∧ (normalizeLinkedInUrl none = none ∧ normalizeLinkedInUrl (some "") = none)
    ∧ (∀ u : String, ¬ "linkedin.com".data <:+: u.data → normalizeLinkedInUrl (some u) = none)
    ∧ (∀ u : String, "linkedin.com".data <:+: u.data →
        ∃ core slashes qpart,
          u.data = core ++ slashes ++ qpart
          ∧ '?' ∉ core ∧ '?' ∉ slashes
          ∧ (qpart = [] ∨ qpart.head? = some '?')
          ∧ (∀ c ∈ slashes, c = '/')
          ∧ core.getLast? ≠ some '/'
          ∧ ∃ v, normalizeLinkedInUrl (some u) = some v
              ∧ ((∃ r, core = "http://".data ++ r ∧ v.data = "https://".data ++ r)
                 ∨ ((¬ ∃ r, core = "http://".data ++ r) ∧ v.data = core))) := by
  refine ⟨⟨by decide, by decide, by decide⟩, ⟨rfl, by decide⟩,
    fun u h2 => normalize_of_reject h2, fun u h2 => ?_⟩
  obtain ⟨t, hdec, ht⟩ := stripSlashes_decomp (stripQuery u.data)
  refine ⟨stripSlashes (stripQuery u.data), t, u.data.dropWhile (fun c => c ≠ '?'),
    ?_, ?_, ?_, dropWhile_mark_head u.data, ht, stripSlashes_getLast _, ?_⟩
  · conv_lhs => rw [stripQuery_decomp u.data]
    rw [← hdec]
  · exact fun hc => (stripQuery_mem (stripSlashes_mem hc)).2 rfl
  · intro hc
    have := ht _ hc
    exact absurd this (by decide)
  · refine ⟨String.mk (upgradeScheme (stripSlashes (stripQuery u.data))),
      normalize_of_accept (linkedin_infix_ne_nil h2) h2, ?_⟩
    by_cases hp : "http://".data <+: stripSlashes (stripQuery u.data)
    · obtain ⟨r, hr⟩ := hp
      have hdrop : (stripSlashes (stripQuery u.data)).drop 7 = r := by
        have h7 : (7 : Nat) = "http://".data.length := by decide
        rw [← hr, h7]
        exact List.drop_left _ _
      left
      refine ⟨r, hr.symm, ?_⟩
      show upgradeScheme (stripSlashes (stripQuery u.data)) = "https://".data ++ r
      unfold upgradeScheme
      rw [if_pos ⟨r, hr⟩, hdrop]
    · right
      refine ⟨fun hcontra => ?_, ?_⟩
      · obtain ⟨r, hr⟩ := hcontra
        exact hp ⟨r, hr.symm⟩
      · show upgradeScheme (stripSlashes (stripQuery u.data)) = stripSlashes (stripQuery u.data)
        unfold upgradeScheme
        rw [if_neg hp]

theorem claim_C3_witness :
    (¬ "linkedin.com".data <:+: "example.com/in/a".data) ∧
      normalizeLinkedInUrl (some "example.com/in/a") = none :=
  ⟨by decide, claim_C3.2.2.1 "example.com/in/a" (by decide)⟩

theorem claim_C10_counterexample :
    normalizeLinkedInUrl (some "abc?linkedin.com") = some "abc" ∧
      normalizeLinkedInUrl (some "abc") = none :=
  ⟨by decide, by decide⟩

/-- C10 (amended): the normalizer is idempotent on every accepted input
whose result still contains `linkedin.com` (the original claim fails
when the only `linkedin.com` occurrence sits in the stripped query part,
see the counterexample). -/
theorem claim_C10 (u v : String) (h : normalizeLinkedInUrl (some u) = some v)
    (hkeep : "linkedin.com".data <:+: v.data) :
    normalizeLinkedInUrl (some v) = some v := by
  obtain ⟨h1, h2, hv⟩ := normalize_eq_some h
  have hmq : '?' ∉ stripSlashes (stripQuery u.data) :=
    fun hc => (stripQuery_mem (stripSlashes_mem hc)).2 rfl
  by_cases hp : "http://".data <+: stripSlashes (stripQuery u.data)
  · obtain ⟨r, hr⟩ := hp
    have hdrop : (stripSlashes (stripQuery u.data)).drop 7 = r := by
      have h7 : (7 : Nat) = "http://".data.length := by decide
      rw [← hr, h7]
      exact List.drop_left _ _
    have hvdata : v.data = "https://".data ++ r := by
      rw [hv]
      unfold upgradeScheme
      rw [if_pos ⟨r, hr⟩, hdrop]
    have hrsub : ∀ c ∈ r, c ∈ stripSlashes (stripQuery u.data) := by
      intro c hc
      rw [← hr]
      exact List.mem_append.mpr (Or.inr hc)
    have hnoq : '?' ∉ v.data := by
      rw [hvdata]
      intro hc
      rcases List.mem_append.mp hc with hc | hc
      · exact absurd hc (by decide)
      · exact hmq (hrsub _ hc)
    have hr_ne : r ≠ [] := by
      rintro rfl
      rw [hvdata] at hkeep
      exact absurd hkeep (by decide)
    have hlast : v.data.getLast? ≠ some '/' := by
      rw [hvdata, List.getLast?_append_of_ne_nil _ hr_ne]
      have hml : (stripSlashes (stripQuery u.data)).getLast? = r.getLast? := by
        rw [← hr, List.getLast?_append_of_ne_nil _ hr_ne]
      rw [← hml]
      exact stripSlashes_getLast _
    have hps : ¬ "http://".data <+: v.data := by
      rw [hvdata]
      exact not_http_prefix_of_https
    exact normalize_fixpoint hkeep hnoq hlast hps
  · have hvdata : v.data = stripSlashes (stripQuery u.data) := by
      rw [hv]
      unfold upgradeScheme
      rw [if_neg hp]
    have hnoq : '?' ∉ v.data := by
      rw [hvdata]
      exact hmq
    have hlast : v.data.getLast? ≠ some '/' := by
      rw [hvdata]
      exact stripSlashes_getLast _
    have hps : ¬ "http://".data <+: v.data := by
      rw [hvdata]
      exact hp
    exact normalize_fixpoint hkeep hnoq hlast hps

theorem claim_C10_witness :
    normalizeLinkedInUrl (some "https://linkedin.com/in/ok") =
      some "https://linkedin.com/in/ok" :=
  claim_C10 "https://linkedin.com/in/ok" "https://linkedin.com/in/ok"
    (by decide) (by decide)

/-! ### Variant lemmas for the dedup claim -/

theorem infix_snoc {α : Type} {pat l : List α} {x : α} (h : pat <:+: l ++ [x]) :
    pat <:+: l ∨ (pat ≠ [] ∧ pat.getLast? = some x) := by
  obtain ⟨s, t, hst⟩ := h
  rcases List.eq_nil_or_concat t with rfl | ⟨t', y, rfl⟩
  · rw [List.append_nil] at hst
    by_cases hpat : pat = []
    · subst hpat
      exact Or.inl List.nil_infix
    · right
      refine ⟨hpat, ?_⟩
      have := congrArg List.getLast? hst
      rw [List.getLast?_append_of_ne_nil _ hpat, List.getLast?_concat] at this
      exact this
  · rw [List.concat_eq_append, ← List.append_assoc] at hst
    have hlen : (s ++ pat ++ t').length = l.length := by
      have := congrArg List.length hst
      simp at this ⊢
      omega
    obtain ⟨hA, -⟩ := List.append_inj hst hlen
    exact Or.inl ⟨s, t', hA⟩

theorem infix_append_replicate {pat b : List Char} (hx : '/' ∉ pat) :
    ∀ {j : Nat}, pat <:+: b ++ List.replicate j '/' → pat <:+: b := by
  intro j
  induction j with
  | zero => simp
  | succ n ih =>
    rw [List.replicate_succ', ← List.append_assoc]
    intro h
    rcases infix_snoc h with h | ⟨-, hlast⟩
    · exact ih h
    · exact absurd (List.mem_of_mem_getLast? hlast) hx

theorem stripQuery_append_qpart {b q : List Char} (hb : '?' ∉ b)
    (hq : q = [] ∨ q.head? = some '?') : stripQuery (b ++ q) = b := by
  unfold stripQuery
  rw [takeWhile_append_of_all (fun a ha => by
    simp only [decide_eq_true_eq]
    rintro rfl
    exact hb ha)]
  rcases hq with rfl | hq
  · simp
  · cases q with
    | nil => simp
    | cons c t =>
      rw [List.head?_cons, Option.some.injEq] at hq
      subst hq
      simp [List.takeWhile_cons]

theorem normalizeChars_append_slashes (b : List Char) (j : Nat) :
    normalizeChars (b ++ List.replicate j '/') = normalizeChars b := by
  have hval : stripSlashes (stripQuery (b ++ List.replicate j '/')) =
      stripSlashes (stripQuery b) := by
    by_cases hq : '?' ∈ b
    · unfold stripQuery
      rw [takeWhile_append_of_bad ⟨'?', hq, by simp⟩]
    · unfold stripQuery
      rw [takeWhile_append_of_all (fun a ha => by
          simp only [decide_eq_true_eq]
          rintro rfl
          exact hq ha),
        List.takeWhile_eq_self_iff.mpr (fun c hc => by
          rw [List.eq_of_mem_replicate hc]
          decide),
        stripSlashes_append_slashes (fun c hc => List.eq_of_mem_replicate hc),
        List.takeWhile_eq_self_iff.mpr (fun c hc => by
          simp only [decide_eq_true_eq]
          rintro rfl
          exact hq hc)]
  unfold normalizeChars
  by_cases hinf : "linkedin.com".data <:+: b
  · have hinf2 : "linkedin.com".data <:+: b ++ List.replicate j '/' :=
      hinf.trans (List.prefix_append _ _).isInfix
    have hbne : b ≠ [] := linkedin_infix_ne_nil hinf
    rw [if_neg (by simp [hbne]), if_neg hbne, if_pos hinf2, if_pos hinf, hval]
  · have hinf2 : ¬ "linkedin.com".data <:+: b ++ List.replicate j '/' :=
      fun h => hinf (infix_append_replicate (by decide) h)
    by_cases hbne : b = []
    · subst hbne
      rw [if_pos rfl]
      by_cases hj : List.replicate j '/' = ([] : List Char)
      · rw [if_pos (by simp [hj])]
      · rw [if_neg (by simp [hj]), if_neg (by simpa using hinf2)]
    · rw [if_neg (by simp [hbne]), if_neg hbne, if_neg hinf2, if_neg hinf]

/-! ### Extractor invariants: membership shape and dedup -/

theorem foldl_mem {β : Type} {P : String → Prop} {f : List String → β → List String}
    (hf : ∀ acc b x, x ∈ f acc b → x ∈ acc ∨ P x) :
    ∀ (l : List β) (acc : List String) (x : String), x ∈ l.foldl f acc → x ∈ acc ∨ P x := by
  intro l
  induction l with
  | nil => exact fun acc x hx => Or.inl hx
  | cons b t ih =>
    intro acc x hx
    rcases ih (f acc b) x hx with h | h
    · exact hf acc b x h
    · exact Or.inr h

theorem foldl_nodup {β : Type} {f : List String → β → List String}
    (hf : ∀ acc b, acc.Nodup → (f acc b).Nodup) :
    ∀ (l : List β) (acc : List String), acc.Nodup → (l.foldl f acc).Nodup := by
  intro l
  induction l with
  | nil => exact fun acc h => h
  | cons b t ih => exact fun acc h => ih (f acc b) (hf acc b h)

theorem insertUrl_mem {acc : List String} {u x : String} (h : x ∈ insertUrl acc u) :
    x ∈ acc ∨ x = u := by
  unfold insertUrl at h
  by_cases hm : u ∈ acc
  · rw [if_pos hm] at h
    exact Or.inl h
  · rw [if_neg hm] at h
    rcases List.mem_append.mp h with h | h
    · exact Or.inl h
    · exact Or.inr (List.mem_singleton.mp h)

theorem insertUrl_nodup {acc : List String} {u : String} (h : acc.Nodup) :
    (insertUrl acc u).Nodup := by
  unfold insertUrl
  by_cases hm : u ∈ acc
  · rw [if_pos hm]
    exact h
  · rw [if_neg hm]
    rw [List.nodup_append]
    exact ⟨h, List.nodup_singleton u, fun a ha hau => hm ((List.mem_singleton.mp hau) ▸ ha)⟩

theorem tryUrlField_mem {acc : List String} {v : Option String} {x : String}
    (h : x ∈ tryUrlField acc v) : x ∈ acc ∨ ProfileOk x := by
  unfold tryUrlField at h
  split at h
  · split at h
    · split at h
      · rcases insertUrl_mem h with h | rfl
        · exact Or.inl h
        · exact Or.inr (Or.inl ⟨_, by assumption⟩)
      · exact Or.inl h
    · exact Or.inl h
  · exact Or.inl h

theorem tryUrlField_nodup {acc : List String} {v : Option String} (h : acc.Nodup) :
    (tryUrlField acc v).Nodup := by
  unfold tryUrlField
  split
  · split
    · split
      · exact insertUrl_nodup h
      · exact h
    · exact h
  · exact h

theorem addIdUrl_mem {acc : List String} {v : Option String} {x : String}
    (h : x ∈ addIdUrl acc v) : x ∈ acc ∨ ProfileOk x := by
  unfold addIdUrl at h
  split at h
  · rcases insertUrl_mem h with h | rfl
    · exact Or.inl h
    · exact Or.inr (Or.inr ⟨_, rfl⟩)
  · exact Or.inl h

theorem addIdUrl_nodup {acc : List String} {v : Option String} (h : acc.Nodup) :
    (addIdUrl acc v).Nodup := by
  unfold addIdUrl
  split
  · exact insertUrl_nodup h
  · exact h

theorem extractFromObj_mem {acc : List String} {o : Item} {x : String}
    (h : x ∈ extractFromObj acc o) : x ∈ acc ∨ ProfileOk x := by
  unfold extractFromObj at h
  rcases addIdUrl_mem h with h | h
  · rcases addIdUrl_mem h with h | h
    · rcases addIdUrl_mem h with h | h
      · exact (foldl_mem (fun a f y hy => tryUrlField_mem hy) _ _ _ h)
      · exact Or.inr h
    · exact Or.inr h
  · exact Or.inr h

theorem extractFromObj_nodup {acc : List String} {o : Item} (h : acc.Nodup) :
    (extractFromObj acc o).Nodup :=
  addIdUrl_nodup (addIdUrl_nodup (addIdUrl_nodup
    (foldl_nodup (fun _ _ ha => tryUrlField_nodup ha) _ _ h)))

theorem extractUrlFromItem_mem {acc : List String} {it : Item} {x : String}
    (h : x ∈ extractUrlFromItem acc it) : x ∈ acc ∨ ProfileOk x := by
  unfold extractUrlFromItem at h
  rcases addIdUrl_mem h with h | h
  · rcases addIdUrl_mem h with h | h
    · have h2 := foldl_mem (P := ProfileOk) (fun a n y hy => by
        cases ho : lookupObj it n with
        | none => rw [ho] at hy; exact Or.inl hy
        | some o => rw [ho] at hy; exact extractFromObj_mem hy) _ _ _ h
      rcases h2 with h2 | h2
      · exact foldl_mem (fun a f y hy => tryUrlField_mem hy) _ _ _ h2
      · exact Or.inr h2
    · exact Or.inr h
  · exact Or.inr h

theorem extractUrlFromItem_nodup {acc : List String} {it : Item} (h : acc.Nodup) :
    (extractUrlFromItem acc it).Nodup := by
  unfold extractUrlFromItem
  refine addIdUrl_nodup (addIdUrl_nodup (foldl_nodup (fun a n ha => ?_) _ _
    (foldl_nodup (fun a f ha => tryUrlField_nodup ha) _ _ h)))
  cases lookupObj it n with
  | none => exact ha
  | some o => exact extractFromObj_nodup ha

theorem extractStep_mem {acc : List String} {post : Post} {x : String}
    (h : x ∈ extractStep acc post) : x ∈ acc ∨ ProfileOk x := by
  unfold extractStep at h
  have hitem : ∀ (a : List String) (it : Item) (y : String),
      y ∈ extractUrlFromItem a it → y ∈ a ∨ ProfileOk y :=
    fun a it y hy => extractUrlFromItem_mem hy
  have hcomment : ∀ (a : List String) (c : Item) (y : String),
      y ∈ (match lookupObj c "author" with
            | some au => extractUrlFromItem (extractUrlFromItem a c) au
            | none => extractUrlFromItem a c) → y ∈ a ∨ ProfileOk y := by
    intro a c y hy
    cases hau : lookupObj c "author" with
    | none =>
      rw [hau] at hy
      exact extractUrlFromItem_mem hy
    | some au =>
      rw [hau] at hy
      rcases extractUrlFromItem_mem hy with hy2 | hy2
      · exact extractUrlFromItem_mem hy2
      · exact Or.inr hy2
  rcases foldl_mem hitem _ _ _ h with h | h
  · rcases foldl_mem hcomment _ _ _ h with h | h
    · rcases foldl_mem hitem _ _ _ h with h | h
      · split at h
        · split at h
          · rcases insertUrl_mem h with h | rfl
            · exact Or.inl h
            · exact Or.inr (Or.inl ⟨_, by assumption⟩)
          · exact Or.inl h
        · exact Or.inl h
      · exact Or.inr h
    · exact Or.inr h
  · exact Or.inr h

theorem extractStep_nodup {acc : List String} {post : Post} (h : acc.Nodup) :
    (extractStep acc post).Nodup := by
  unfold extractStep
  refine foldl_nodup (fun a it ha => extractUrlFromItem_nodup ha) _ _
    (foldl_nodup (fun a c ha => ?_) _ _
      (foldl_nodup (fun a it ha => extractUrlFromItem_nodup ha) _ _ ?_))
  · cases lookupObj c "author" with
    | none => exact extractUrlFromItem_nodup ha
    | some au => exact extractUrlFromItem_nodup (extractUrlFromItem_nodup ha)
  · split
    · split
      · exact insertUrl_nodup h
      · exact h
    · exact h

theorem extractProfileUrls_mem {postData : List Post} {x : String}
    (h : x ∈ extractProfileUrls postData) : ProfileOk x := by
  unfold extractProfileUrls at h
  rcases foldl_mem (fun a p y hy => extractStep_mem hy) _ _ _ h with h | h
  · simp at h
  · exact h

theorem extractProfileUrls_nodup (postData : List Post) :
    (extractProfileUrls postData).Nodup :=
  foldl_nodup (fun _ _ ha => extractStep_nodup ha) _ _ List.nodup_nil

theorem claim_C8_counterexample :
    (queryVariant "a?linkedin.com" "a?b"
      ∧ normalizeLinkedInUrl (some "a?linkedin.com") = some "a"
      ∧ normalizeLinkedInUrl (some "a?b") = none
      ∧ normalizeLinkedInUrl (some "a?linkedin.com") ≠ normalizeLinkedInUrl (some "a?b"))
    ∧ (schemeVariant "http:///?linkedin.com" "https:///?linkedin.com"
      ∧ normalizeLinkedInUrl (some "http:///?linkedin.com") = some "http:"
      ∧ normalizeLinkedInUrl (some "https:///?linkedin.com") = some "https:"
      ∧ normalizeLinkedInUrl (some "http:///?linkedin.com")
          ≠ normalizeLinkedInUrl (some "https:///?linkedin.com")) := by
  constructor
  · exact ⟨⟨"a".data, "?linkedin.com".data, "?b".data, by decide,
      Or.inr (by decide), Or.inr (by decide), by decide, by decide⟩,
      by decide, by decide, by decide⟩
  · exact ⟨⟨"/?linkedin.com", Or.inl ⟨by decide, by decide⟩⟩,
      by decide, by decide, by decide⟩

/-- C8 (amended): trailing-slash variants always normalize identically
(accepted or not); query variants normalize identically whenever both
are accepted; scheme variants normalize identically (and are accepted)
whenever `linkedin.com` occurs in the shared remainder before the first
`'?'`; and the extractor output never contains duplicates.  (As stated,
the claim fails when acceptance differs between query variants or when
stripping consumes the scheme's slashes, see the counterexample.) -/
theorem claim_C8 :
    (∀ u1 u2 : String, slashVariant u1 u2 →
      normalizeLinkedInUrl (some u1) = normalizeLinkedInUrl (some u2))
    ∧ (∀ u1 u2 v1 v2 : String, queryVariant u1 u2 →
        normalizeLinkedInUrl (some u1) = some v1 →
        normalizeLinkedInUrl (some u2) = some v2 → v1 = v2)
    ∧ (∀ r : String, "linkedin.com".data <:+: stripQuery r.data →
        normalizeLinkedInUrl (some ("http://" ++ r)) =
          normalizeLinkedInUrl (some ("https://" ++ r))
        ∧ ∃ v, normalizeLinkedInUrl (some ("http://" ++ r)) = some v)
    ∧ (∀ postData : List Post, (extractProfileUrls postData).Nodup) := by
  refine ⟨?_, ?_, ?_, extractProfileUrls_nodup⟩
  · rintro u1 u2 ⟨b, j, k, h1, h2⟩
    show (normalizeChars u1.data).map String.mk = (normalizeChars u2.data).map String.mk
    rw [h1, h2, normalizeChars_append_slashes, normalizeChars_append_slashes]
  · rintro u1 u2 v1 v2 ⟨b, q1, q2, hb, hq1, hq2, h1, h2⟩ hv1 hv2
    obtain ⟨h1ne, h1inf, -⟩ := normalize_eq_some hv1
    obtain ⟨h2ne, h2inf, -⟩ := normalize_eq_some hv2
    rw [normalize_of_accept h1ne h1inf] at hv1
    rw [normalize_of_accept h2ne h2inf] at hv2
    rw [h1, stripQuery_append_qpart hb hq1] at hv1
    rw [h2, stripQuery_append_qpart hb hq2] at hv2
    rw [← Option.some.injEq _ _ |>.mp hv1, ← Option.some.injEq _ _ |>.mp hv2]
  · intro r hr
    have hrq : "linkedin.com".data <:+: r.data :=
      hr.trans (List.takeWhile_prefix _).isInfix
    have hssne : stripSlashes (stripQuery r.data) ≠ [] := by
      intro h0
      obtain ⟨t, hdec, ht⟩ := stripSlashes_decomp (stripQuery r.data)
      rw [h0, List.nil_append] at hdec
      exact not_infix_all_slash (fun c hc => ht c (hdec ▸ hc)) hr
    have hnoq7 : ∀ c ∈ "http://".data, (fun c => decide (c ≠ '?')) c = true := by decide
    have hnoq8 : ∀ c ∈ "https://".data, (fun c => decide (c ≠ '?')) c = true := by decide
    have hinf1 : "linkedin.com".data <:+: ("http://" ++ r).data := by
      rw [String.data_append]
      exact hrq.trans (List.suffix_append _ _).isInfix
    have hinf2 : "linkedin.com".data <:+: ("https://" ++ r).data := by
      rw [String.data_append]
      exact hrq.trans (List.suffix_append _ _).isInfix
    have hval1 : stripSlashes (stripQuery ("http://" ++ r).data) =
        "http://".data ++ stripSlashes (stripQuery r.data) := by
      rw [String.data_append]
      unfold stripQuery
      rw [takeWhile_append_of_all hnoq7]
      exact stripSlashes_append_keep hssne
    have hval2 : stripSlashes (stripQuery ("https://" ++ r).data) =
        "https://".data ++ stripSlashes (stripQuery r.data) := by
      rw [String.data_append]
      unfold stripQuery
      rw [takeWhile_append_of_all hnoq8]
      exact stripSlashes_append_keep hssne
    have hup1 : upgradeScheme ("http://".data ++ stripSlashes (stripQuery r.data)) =
        "https://".data ++ stripSlashes (stripQuery r.data) := by
      unfold upgradeScheme
      rw [if_pos (List.prefix_append _ _)]
      have h7 : (7 : Nat) = "http://".data.length := by decide
      rw [h7, List.drop_left]
    have hup2 : upgradeScheme ("https://".data ++ stripSlashes (stripQuery r.data)) =
        "https://".data ++ stripSlashes (stripQuery r.data) := by
      unfold upgradeScheme
      rw [if_neg not_http_prefix_of_https]
    rw [normalize_of_accept (linkedin_infix_ne_nil hinf1) hinf1,
      normalize_of_accept (linkedin_infix_ne_nil hinf2) hinf2,
      hval1, hval2, hup1, hup2]
    exact ⟨rfl, _, rfl⟩

theorem claim_C8_witness :
    normalizeLinkedInUrl (some ("http://" ++ "linkedin.com/in/a")) =
        normalizeLinkedInUrl (some ("https://" ++ "linkedin.com/in/a"))
      ∧ ∃ v, normalizeLinkedInUrl (some ("http://" ++ "linkedin.com/in/a")) = some v :=
  claim_C8.2.2.1 "linkedin.com/in/a" (by decide)

theorem claim_C9_counterexample :
    ((extractProfileUrls [{ authorProfileUrl := some "https://linkedin.com/in/a",
                            reactions := none, likers := none, likes := none,
                            comments := none, commenters := none,
                            engagements := none, engagement := none }] =
        ["https://linkedin.com/in/a"])
      ∧ ¬ "https://www.linkedin.com/in/".data <+: "https://linkedin.com/in/a".data)
    ∧ ((extractProfileUrls [{ authorProfileUrl := none,
                              reactions := some [Item.mk [] [] (some "b/") none none],
                              likers := none, likes := none,
                              comments := none, commenters := none,
                              engagements := none, engagement := none }] =
        ["https://www.linkedin.com/in/b/"])
      ∧ "https://www.linkedin.com/in/b/".data.getLast? = some '/') := by
  exact ⟨⟨by decide, by decide⟩, ⟨by decide, by decide⟩⟩

/-- C9 (amended): every extracted ProfileURL is either the normalizer's
output on some raw string found in the records (hence query-free, with
no trailing slash and an upgraded scheme, but not necessarily of the
`https://www.linkedin.com/in/` shape), or a string synthesized by the
fixed template from an identifier field, inserted without any
normalization (so it can carry a trailing slash or query taken from the
identifier).  The claim as stated fails on both counts, see the
counterexample. -/
theorem claim_C9 (postData : List Post) (u : String)
    (h : u ∈ extractProfileUrls postData) :
    (∃ raw, normalizeLinkedInUrl (some raw) = some u) ∨
      (∃ id, u = "https://www.linkedin.com/in/" ++ id) :=
  extractProfileUrls_mem h

theorem claim_C9_witness :
    (∃ raw, normalizeLinkedInUrl (some raw) = some "https://linkedin.com/in/a") ∨
      (∃ id, "https://linkedin.com/in/a" = "https://www.linkedin.com/in/" ++ id) :=
  claim_C9 [{ authorProfileUrl := some "https://linkedin.com/in/a",
              reactions := none, likers := none, likes := none,
              comments := none, commenters := none,
              engagements := none, engagement := none }]
    "https://linkedin.com/in/a" (by decide)

/-! ### Batching lemmas -/

theorem chunkGo_nil {α : Type} (sz : Nat) : ∀ f, chunkGo sz f ([] : List α) = [] := by
  intro f
  cases f <;> rfl

theorem chunkGo_flatten {α : Type} (s : Nat) :
    ∀ (f : Nat) (l : List α), l.length ≤ f → (chunkGo (s + 1) f l).flatten = l := by
  intro f
  induction f with
  | zero =>
    intro l hl
    cases l with
    | nil => rfl
    | cons a t => simp at hl
  | succ n ih =>
    intro l hl
    cases l with
    | nil => rfl
    | cons a t =>
      have hlen : ((a :: t).drop (s + 1)).length ≤ n := by
        rw [List.length_drop]
        simp only [List.length_cons] at hl ⊢
        omega
      simp only [chunkGo, List.flatten_cons]
      rw [ih _ hlen, List.take_append_drop]

theorem chunkGo_length {α : Type} (s : Nat) :
    ∀ (f : Nat) (l : List α), l.length ≤ f →
      (chunkGo (s + 1) f l).length = (l.length + s) / (s + 1) := by
  intro f
  induction f with
  | zero =>
    intro l hl
    cases l with
    | nil => simp [chunkGo_nil, Nat.div_eq_of_lt (by omega : s < s + 1)]
    | cons a t => simp at hl
  | succ n ih =>
    intro l hl
    cases l with
    | nil => simp [chunkGo_nil, Nat.div_eq_of_lt (by omega : s < s + 1)]
    | cons a t =>
      have hlen : ((a :: t).drop (s + 1)).length ≤ n := by
        rw [List.length_drop]
        simp only [List.length_cons] at hl ⊢
        omega
      simp only [chunkGo, List.length_cons]
      rw [ih _ hlen, List.length_drop]
      simp only [List.length_cons]
      have hge : s + 1 ≤ t.length + 1 + s := by omega
      rw [Nat.div_eq_sub_div (Nat.succ_pos s) hge]
      rcases Nat.lt_or_ge t.length s with hcase | hcase
      · rw [Nat.div_eq_of_lt (by omega), Nat.div_eq_of_lt (by omega)]
      · have hnum : t.length + 1 - (s + 1) + s = t.length + 1 + s - (s + 1) := by omega
        rw [hnum]

theorem chunkGo_dropLast {α : Type} (s : Nat) :
    ∀ (f : Nat) (l : List α) (b : List α),
      b ∈ (chunkGo (s + 1) f l).dropLast → b.length = s + 1 := by
  intro f
  induction f with
  | zero =>
    intro l b hb
    cases l with
    | nil => simp [chunkGo_nil] at hb
    | cons a t => simp [chunkGo] at hb
  | succ n ih =>
    intro l b hb
    cases l with
    | nil => simp [chunkGo_nil] at hb
    | cons a t =>
      simp only [chunkGo] at hb
      cases hrest : chunkGo (s + 1) n ((a :: t).drop (s + 1)) with
      | nil => rw [hrest] at hb; simp at hb
      | cons c cs =>
        rw [hrest, List.dropLast_cons_of_ne_nil (List.cons_ne_nil c cs)] at hb
        rcases List.mem_cons.mp hb with rfl | hb
        · have hdropne : (a :: t).drop (s + 1) ≠ [] := by
            intro h0
            rw [h0, chunkGo_nil] at hrest
            exact List.cons_ne_nil c cs hrest.symm
          have hlen2 : s + 1 ≤ (a :: t).length := by
            by_contra hcon
            push_neg at hcon
            exact hdropne (List.drop_eq_nil_of_le (by omega))
          rw [List.length_take]
          omega
        · exact ih _ b (by rw [hrest]; exact hb)

theorem chunkGo_mem {α : Type} (s : Nat) :
    ∀ (f : Nat) (l : List α) (b : List α),
      b ∈ chunkGo (s + 1) f l → b.length ≤ s + 1 ∧ b ≠ [] := by
  intro f
  induction f with
  | zero =>
    intro l b hb
    cases l with
    | nil => simp [chunkGo_nil] at hb
    | cons a t => simp [chunkGo] at hb
  | succ n ih =>
    intro l b hb
    cases l with
    | nil => simp [chunkGo_nil] at hb
    | cons a t =>
      simp only [chunkGo] at hb
      rcases List.mem_cons.mp hb with rfl | hb
      · constructor
        · rw [List.length_take]
          omega
        · rw [List.take_succ_cons]
          exact List.cons_ne_nil _ _
      · exact ih _ b hb

theorem runBatches_delays (e : String → Option EnrichedContact) :
    ∀ bs : List (List String), (runBatches e bs).delays = bs.length - 1 := by
  intro bs
  induction bs with
  | nil => rfl
  | cons b rest ih =>
    cases rest with
    | nil => rfl
    | cons c cs =>
      show (runBatches e (c :: cs)).delays + 1 = (b :: c :: cs).length - 1
      rw [ih]
      simp only [List.length_cons]
      omega

/-- C4: `chunkArray` partitions its input into `ceil(n/w)` consecutive
batches whose concatenation is the input, each batch nonempty of size at
most `w` and every batch except possibly the last of size exactly `w`;
and the batch loop performs exactly (number of batches) − 1 inter-batch
delays, never one after the last batch. -/
theorem claim_C4 (enrich : String → Option EnrichedContact) (urls : List String)
    (w : Nat) (hw : 0 < w) :
    (chunkArray urls w).flatten = urls
    ∧ (chunkArray urls w).length = (urls.length + w - 1) / w
    ∧ (∀ b ∈ (chunkArray urls w).dropLast, b.length = w)
    ∧ (∀ b ∈ chunkArray urls w, b.length ≤ w ∧ b ≠ [])
    ∧ (enrichProfiles enrich urls w).delays = (chunkArray urls w).length - 1 := by
  obtain ⟨s, rfl⟩ : ∃ s, w = s + 1 := ⟨w - 1, by omega⟩
  have hchunk : chunkArray urls (s + 1) = chunkGo (s + 1) urls.length urls := rfl
  refine ⟨?_, ?_, ?_, ?_, ?_⟩
  · rw [hchunk]
    exact chunkGo_flatten s _ _ (le_refl _)
  · rw [hchunk, chunkGo_length s _ _ (le_refl _),
      show urls.length + (s + 1) - 1 = urls.length + s from by omega]
  · rw [hchunk]
    exact fun b hb => chunkGo_dropLast s _ _ b hb
  · rw [hchunk]
    exact fun b hb => chunkGo_mem s _ _ b hb
  · have he : enrichProfiles enrich urls (s + 1) =
        runBatches enrich (chunkArray urls (s + 1)) := rfl
    rw [he, runBatches_delays]

theorem claim_C4_witness :
    (chunkArray urls12 5).flatten = urls12
    ∧ (chunkArray urls12 5).map List.length = [5, 5, 2]
    ∧ (enrichProfiles (fun _ => none) urls12 5).delays = 2 :=
  ⟨(claim_C4 (fun _ => none) urls12 5 (by decide)).1, by decide, by decide⟩

/-! ### Enrichment filter and retry -/

/-- C2: a per-URL enrichment call yields a contact exactly when the
response carries a person with a non-empty email whose status is neither
`guessed` nor `unavailable`; and any contact produced has a non-empty,
non-guessed, non-unavailable email. -/
theorem claim_C2 (url : String) (po : Option Person) :
    ((∃ c, enrichOnce url po = some c) ↔
      (∃ p, po = some p ∧ p.email ≠ "" ∧ p.email_status ≠ "guessed"
        ∧ p.email_status ≠ "unavailable"))
    ∧ (∀ c, enrichOnce url po = some c →
        c.email ≠ "" ∧ c.emailStatus ≠ "guessed" ∧ c.emailStatus ≠ "unavailable") := by
  constructor
  · constructor
    · rintro ⟨c, hc⟩
      cases po with
      | none => simp [enrichOnce] at hc
      | some p =>
        simp only [enrichOnce] at hc
        by_cases hcond : p.email = "" ∨ p.email_status = "guessed"
            ∨ p.email_status = "unavailable"
        · rw [if_pos hcond] at hc
          simp at hc
        · push_neg at hcond
          exact ⟨p, rfl, hcond.1, hcond.2.1, hcond.2.2⟩
    · rintro ⟨p, rfl, h1, h2, h3⟩
      simp only [enrichOnce]
      rw [if_neg (by push_neg; exact ⟨h1, h2, h3⟩)]
      exact ⟨_, rfl⟩
  · intro c hc
    cases po with
    | none => simp [enrichOnce] at hc
    | some p =>
      simp only [enrichOnce] at hc
      by_cases hcond : p.email = "" ∨ p.email_status = "guessed"
          ∨ p.email_status = "unavailable"
      · rw [if_pos hcond] at hc
        simp at hc
      · rw [if_neg hcond] at hc
        push_neg at hcond
        cases hc
        exact ⟨hcond.1, hcond.2.1, hcond.2.2⟩

theorem claim_C2_witness :
    ∃ c, enrichOnce "https://linkedin.com/in/x"
      (some ⟨"x@y.com", "verified", "A", "B", "T", "Acme", ""⟩) = some c :=
  (claim_C2 "https://linkedin.com/in/x"
      (some ⟨"x@y.com", "verified", "A", "B", "T", "Acme", ""⟩)).1.mpr
    ⟨⟨"x@y.com", "verified", "A", "B", "T", "Acme", ""⟩, rfl,
      by decide, by decide, by decide⟩

/-- C7: on a rate-limit response the call records a 5000 ms sleep and
recurses on exactly the same URL at the next attempt; a success response
terminates with the filtered contact; any other failure terminates with
`null` (no exception is modelled because the source catches everything);
and every URL ever sent by the call is the original URL. -/
theorem claim_C7 (oracle : Nat → ApolloResp) (url : String) (attempt fuel : Nat) :
    (oracle attempt = ApolloResp.rateLimited →
      enrichProfileFuel oracle url attempt (fuel + 1) =
        ⟨(enrichProfileFuel oracle url (attempt + 1) fuel).result,
         url :: (enrichProfileFuel oracle url (attempt + 1) fuel).calls,
         5000 :: (enrichProfileFuel oracle url (attempt + 1) fuel).sleeps⟩)
    ∧ (oracle attempt = ApolloResp.failure →
        enrichProfileFuel oracle url attempt (fuel + 1) = ⟨some none, [url], []⟩)
    ∧ (∀ po, oracle attempt = ApolloResp.success po →
        enrichProfileFuel oracle url attempt (fuel + 1) =
          ⟨some (enrichOnce url po), [url], []⟩)
    ∧ (∀ c ∈ (enrichProfileFuel oracle url attempt fuel).calls, c = url) := by
  refine ⟨?_, ?_, ?_, ?_⟩
  · intro h
    simp [enrichProfileFuel, h]
  · intro h
    simp [enrichProfileFuel, h]
  · intro po h
    simp [enrichProfileFuel, h]
  · induction fuel generalizing attempt with
    | zero =>
      intro c hc
      simp [enrichProfileFuel] at hc
    | succ n ih =>
      intro c hc
      cases horacle : oracle attempt with
      | success po =>
        simp [enrichProfileFuel, horacle] at hc
        exact hc
      | rateLimited =>
        simp [enrichProfileFuel, horacle] at hc
        rcases hc with rfl | hc
        · rfl
        · exact ih (attempt + 1) c hc
      | failure =>
        simp [enrichProfileFuel, horacle] at hc
        exact hc

theorem claim_C7_witness :
    enrichProfileFuel
        (fun n => if n = 0 then ApolloResp.rateLimited else ApolloResp.failure)
        "u" 1 (0 + 1) =
      ⟨some none, ["u"], []⟩ :=
  (claim_C7 (fun n => if n = 0 then ApolloResp.rateLimited else ApolloResp.failure)
    "u" 1 0).2.1 rfl

/-! ### Delivery lemmas -/

theorem addLeadsIndividually_spec (one : Lead → Except String String) :
    ∀ leads : List Lead,
      (addLeadsIndividually one leads).added + (addLeadsIndividually one leads).failed
          = leads.length
      ∧ (addLeadsIndividually one leads).calls = leads
      ∧ (addLeadsIndividually one leads).leads = leads.map (fun lead =>
          match one lead with
          | .ok _ => (⟨true, lead.email, none⟩ : LeadOutcome)
          | .error err => ⟨false, lead.email, some err⟩) := by
  intro leads
  induction leads with
  | nil => exact ⟨rfl, rfl, rfl⟩
  | cons lead rest ih =>
    obtain ⟨ih1, ih2, ih3⟩ := ih
    cases hone : one lead with
    | ok r =>
      have hred : addLeadsIndividually one (lead :: rest) =
          ⟨(addLeadsIndividually one rest).added + 1,
           (addLeadsIndividually one rest).failed,
           ⟨true, lead.email, none⟩ :: (addLeadsIndividually one rest).leads,
           lead :: (addLeadsIndividually one rest).calls⟩ := by
        simp [addLeadsIndividually, hone]
      rw [hred]
      refine ⟨?_, ?_, ?_⟩
      · show (addLeadsIndividually one rest).added + 1
            + (addLeadsIndividually one rest).failed = (lead :: rest).length
        simp only [List.length_cons]
        omega
      · show lead :: (addLeadsIndividually one rest).calls = lead :: rest
        rw [ih2]
      · show (⟨true, lead.email, none⟩ : LeadOutcome)
            :: (addLeadsIndividually one rest).leads = (lead :: rest).map _
        rw [List.map_cons, ih3]
        congr 1
        rw [hone]
    | error err =>
      have hred : addLeadsIndividually one (lead :: rest) =
          ⟨(addLeadsIndividually one rest).added,
           (addLeadsIndividually one rest).failed + 1,
           ⟨false, lead.email, some err⟩ :: (addLeadsIndividually one rest).leads,
           lead :: (addLeadsIndividually one rest).calls⟩ := by
        simp [addLeadsIndividually, hone]
      rw [hred]
      refine ⟨?_, ?_, ?_⟩
      · show (addLeadsIndividually one rest).added
            + ((addLeadsIndividually one rest).failed + 1) = (lead :: rest).length
        simp only [List.length_cons]
        omega
      · show lead :: (addLeadsIndividually one rest).calls = lead :: rest
        rw [ih2]
      · show (⟨false, lead.email, some err⟩ : LeadOutcome)
            :: (addLeadsIndividually one rest).leads = (lead :: rest).map _
        rw [List.map_cons, ih3]
        congr 1
        rw [hone]

/-- C5: when the bulk upload raises on a non-empty contact list, the
submitter falls back to exactly one individual submission per formatted
contact (in order), returns `added + failed` equal to the contact count,
and produces one per-contact outcome whose success mirrors the
individual call's result; no exception escapes (the return type is a
plain result, mirroring the per-lead `try`/`catch`). -/
theorem claim_C5 (bulk : List Lead → Except String BulkResp)
    (submitOne : Lead → Except String String) (contacts : List EnrichedContact)
    (e : String) (hne : contacts ≠ [])
    (hbulk : bulk (contacts.map formatLead) = Except.error e) :
    (addLeads bulk submitOne contacts).added
        + (addLeads bulk submitOne contacts).failed = contacts.length
    ∧ (addLeads bulk submitOne contacts).calls = contacts.map formatLead
    ∧ (addLeads bulk submitOne contacts).leads =
        (contacts.map formatLead).map (fun lead =>
          match submitOne lead with
          | .ok _ => (⟨true, lead.email, none⟩ : LeadOutcome)
          | .error err => ⟨false, lead.email, some err⟩) := by
  have hred : addLeads bulk submitOne contacts =
      addLeadsIndividually submitOne (contacts.map formatLead) := by
    unfold addLeads
    rw [if_neg (by simpa [List.isEmpty_iff] using hne)]
    simp only [hbulk]
  obtain ⟨h1, h2, h3⟩ := addLeadsIndividually_spec submitOne (contacts.map formatLead)
  rw [hred]
  exact ⟨by rw [h1, List.length_map], h2, h3⟩

theorem claim_C5_witness :
    ([contactA] ≠ [] ∧
      (fun _ => (Except.error "boom" : Except String BulkResp))
        ([contactA].map formatLead) = Except.error "boom")
    ∧ (addLeads (fun _ => Except.error "boom") (fun _ => Except.ok "ok") [contactA]).added
        + (addLeads (fun _ => Except.error "boom") (fun _ => Except.ok "ok") [contactA]).failed
        = 1 :=
  ⟨⟨List.cons_ne_nil _ _, rfl⟩,
   (claim_C5 (fun _ => Except.error "boom") (fun _ => Except.ok "ok") [contactA] "boom"
     (List.cons_ne_nil _ _) rfl).1⟩

theorem claim_C6_counterexample :
    addLeads (fun _ => Except.ok ⟨some 0, none, some 0⟩) (fun _ => Except.ok "r")
        [contactA] = ⟨1, 0, [], []⟩
    ∧ (⟨some 0, none, some 0⟩ : BulkResp).upload_count = some 0 :=
  ⟨by decide, rfl⟩

/-- C6 (amended): on bulk success the returned `added` is the backend's
`upload_count` when that is present and nonzero, else its `total_leads`
when present and nonzero, else the number of submitted leads — a
reported zero is treated exactly like an omitted count (JS `||`
falsiness); `failed` is the backend's `failed_count` or 0; and the bulk
path issues no individual submissions.  (The claim as stated fails when
the backend explicitly reports zero, see the counterexample.) -/
theorem claim_C6 (bulk : List Lead → Except String BulkResp)
    (submitOne : Lead → Except String String) (contacts : List EnrichedContact)
    (resp : BulkResp) (hne : contacts ≠ [])
    (hok : bulk (contacts.map formatLead) = Except.ok resp) :
    ((resp.upload_count = none ∨ resp.upload_count = some 0) →
      (resp.total_leads = none ∨ resp.total_leads = some 0) →
      (addLeads bulk submitOne contacts).added = contacts.length)
    ∧ (∀ k, k ≠ 0 → resp.upload_count = some k →
        (addLeads bulk submitOne contacts).added = k)
    ∧ (∀ k, k ≠ 0 → (resp.upload_count = none ∨ resp.upload_count = some 0) →
        resp.total_leads = some k → (addLeads bulk submitOne contacts).added = k)
    ∧ (addLeads bulk submitOne contacts).failed = resp.failed_count.getD 0
    ∧ (addLeads bulk submitOne contacts).leads = []
    ∧ (addLeads bulk submitOne contacts).calls = [] := by
  have hred : addLeads bulk submitOne contacts =
      ⟨jsOrNat resp.upload_count
         (jsOrNat resp.total_leads (contacts.map formatLead).length),
       jsOrNat resp.failed_count 0, [], []⟩ := by
    unfold addLeads
    rw [if_neg (by simpa [List.isEmpty_iff] using hne)]
    simp only [hok]
  rw [hred]
  refine ⟨?_, ?_, ?_, ?_, rfl, rfl⟩
  · intro hu ht
    show jsOrNat resp.upload_count
        (jsOrNat resp.total_leads (contacts.map formatLead).length) = contacts.length
    rcases hu with hu | hu <;> rcases ht with ht | ht <;>
      simp [jsOrNat, hu, ht, List.length_map]
  · intro k hk hu
    show jsOrNat resp.upload_count
        (jsOrNat resp.total_leads (contacts.map formatLead).length) = k
    simp [jsOrNat, hu, hk]
  · intro k hk hu ht
    show jsOrNat resp.upload_count
        (jsOrNat resp.total_leads (contacts.map formatLead).length) = k
    rcases hu with hu | hu <;> simp [jsOrNat, hu, ht, hk]
  · show jsOrNat resp.failed_count 0 = resp.failed_count.getD 0
    cases hf : resp.failed_count with
    | none => rfl
    | some k =>
      by_cases hk : k = 0 <;> simp [jsOrNat, hk]

theorem claim_C6_witness :
    (addLeads (fun _ => Except.ok ⟨some 2, none, some 1⟩) (fun _ => Except.ok "r")
      [contactA]).added = 2 :=
  (claim_C6 (fun _ => Except.ok ⟨some 2, none, some 1⟩) (fun _ => Except.ok "r")
    [contactA] ⟨some 2, none, some 1⟩ (List.cons_ne_nil _ _) rfl).2.1 2 (by decide) rfl

/-! ### Controller: the zero-engagers path -/

theorem claim_C1_counterexample :
    ((runPipeline (Except.ok []) (fun _ => []) (fun _ => ⟨0, 0, [], []⟩)).notifications =
      [Notification.status "Scraping LinkedIn post engagers...",
       Notification.message "No engagers found for this post."])
    ∧ (∀ st : Stats, Notification.summary st ∉
        (runPipeline (Except.ok []) (fun _ => []) (fun _ => ⟨0, 0, [], []⟩)).notifications) := by
  refine ⟨rfl, ?_⟩
  intro st h
  have hred : (runPipeline (Except.ok []) (fun _ => [])
      (fun _ => (⟨0, 0, [], []⟩ : AddLeadsResult))).notifications =
      [Notification.status "Scraping LinkedIn post engagers...",
       Notification.message "No engagers found for this post."] := rfl
  rw [hred] at h
  simp at h

/-- C1 (amended): when the Scraper yields zero profile URLs the run
completes normally with all-zero statistics and sends exactly the
scraping status and the "no engagers" message — in particular it sends
no statistics summary (contrary to the claim as stated, see the
counterexample) — and the Enricher and Delivery collaborators are never
invoked (the run's observables are independent of them). -/
theorem claim_C1 (enrich enrich' : List String → List EnrichedContact)
    (deliver deliver' : List EnrichedContact → AddLeadsResult) :
    (runPipeline (Except.ok []) enrich deliver).outcome = Except.ok ⟨0, 0, 0, 0⟩
    ∧ (runPipeline (Except.ok []) enrich deliver).notifications =
        [Notification.status "Scraping LinkedIn post engagers...",
         Notification.message "No engagers found for this post."]
    ∧ (∀ st : Stats, Notification.summary st ∉
        (runPipeline (Except.ok []) enrich deliver).notifications)
    ∧ (runPipeline (Except.ok []) enrich deliver).enricherInvoked = false
    ∧ (runPipeline (Except.ok []) enrich deliver).deliveryInvoked = false
    ∧ runPipeline (Except.ok []) enrich deliver =
        runPipeline (Except.ok []) enrich' deliver' := by
  refine ⟨rfl, rfl, ?_, rfl, rfl, rfl⟩
  intro st h
  have hred : (runPipeline (Except.ok []) enrich deliver).notifications =
      [Notification.status "Scraping LinkedIn post engagers...",
       Notification.message "No engagers found for this post."] := rfl
  rw [hred] at h
  simp at h

theorem claim_C1_witness :
    (runPipeline (Except.ok []) (fun _ => [contactA]) (fun _ => ⟨1, 0, [], []⟩)).enricherInvoked
      = false :=
  (claim_C1 (fun _ => [contactA]) (fun _ => [contactA])
    (fun _ => ⟨1, 0, [], []⟩) (fun _ => ⟨1, 0, [], []⟩)).2.2.2.1

end Pipeline
